import Mathlib

/-!
Verification of the `persistlog` replay-protection log (`DecayedLog`) of the
lightning-onion repository.

The Go code stores `(sharedHash, CLTV)` pairs in a single bolt bucket
(`sharedHashBucket`) inside a channeldb database.  We embed the bucket as an
association list of byte strings.  A bolt bucket maps each key to at most one
value, so the list-level operations below are written so that they agree with
bolt on every bucket whose keys are distinct (`keysNodup`); `bucketPut`
replaces every binding of the key (or appends a fresh one) and `bucketDel`
removes every binding, exactly as bolt's single-binding `Put`/`Delete` behave
on such buckets.

Machine integers are `Nat` with explicit `% 2^32` where Go's `uint32`
conversions occur.  Storage-engine failures (disk errors) are outside the
model; the one bolt error that depends only on the arguments, `ErrKeyRequired`
for an empty key on `Put`, is modelled, so `DecayedLog.Put` returns
`Except String`.
-/

set_option autoImplicit false

namespace PersistLog

/-- A byte string: a list of byte values. -/
abbrev Bytes := List Nat

/-- The contents of the bolt `sharedHashBucket`: an association list from
keys (truncated shared-secret hashes) to values (big-endian CLTV bytes). -/
abbrev Bucket := List (Bytes × Bytes)

/-- `sharedHashSize` from the source: keys are the first 20 bytes of a
sha-256 hash of the shared secret. -/
def sharedHashSize : Nat := 20

/-- `sharedSecretSize` from the source: shared secrets are 32 bytes. -/
def sharedSecretSize : Nat := 32

/-- `math.MaxUint32`, the in-band sentinel `Get` returns for an absent key. -/
def maxUint32 : Nat := 2 ^ 32 - 1

/-- Go `binary.BigEndian.PutUint32`: the four big-endian bytes of a
`uint32` value. -/
def putUint32BE (v : Nat) : Bytes :=
  [v / 2 ^ 24 % 256, v / 2 ^ 16 % 256, v / 2 ^ 8 % 256, v % 256]

/-- Go `binary.BigEndian.Uint32`: big-endian decode of the first four bytes.
Go panics when fewer than four bytes are present; every value the log stores
has exactly four bytes (written by `Put`), where this total function agrees
with Go. -/
def uint32BE (b : Bytes) : Nat :=
  b.getD 0 0 * 2 ^ 24 + b.getD 1 0 * 2 ^ 16 + b.getD 2 0 * 2 ^ 8 + b.getD 3 0

/-- First value bound to `k` in the bucket (bolt `Bucket.Get`; `none` is
Go's `nil`). -/
def bucketGet : Bucket → Bytes → Option Bytes
  | [], _ => none
  | kv :: rest, k => if kv.1 = k then some kv.2 else bucketGet rest k

/-- Whether some binding of `k` is present. -/
def bucketHasKey : Bucket → Bytes → Bool
  | [], _ => false
  | kv :: rest, k => if kv.1 = k then true else bucketHasKey rest k

/-- Rebind every occurrence of `k` to `v`. -/
def bucketReplace : Bucket → Bytes → Bytes → Bucket
  | [], _, _ => []
  | kv :: rest, k, v =>
      if kv.1 = k then (k, v) :: bucketReplace rest k v
      else kv :: bucketReplace rest k v

/-- Bolt `Bucket.Put` (upsert): replace the binding of `k` when present,
append a fresh binding otherwise. -/
def bucketPut (b : Bucket) (k v : Bytes) : Bucket :=
  if bucketHasKey b k then bucketReplace b k v else b ++ [(k, v)]

/-- Bolt `Bucket.Delete`: remove the binding of `k` (a no-op when absent). -/
def bucketDel : Bucket → Bytes → Bucket
  | [], _ => []
  | kv :: rest, k => if kv.1 = k then bucketDel rest k else kv :: bucketDel rest k

/-- Number of bindings of `k` in the bucket; at most one in any bucket bolt
can produce. -/
def countKey : Bucket → Bytes → Nat
  | [], _ => 0
  | kv :: rest, k => if kv.1 = k then countKey rest k + 1 else countKey rest k

/-- The bucket invariant bolt maintains: each key is bound at most once. -/
def keysNodup (b : Bucket) : Prop := (b.map Prod.fst).Nodup

/-- The durable contents of the database directory: the shared-hash bucket,
or `none` when it has never been created. -/
structure Disk where
  sharedHashes : Option Bucket

/-- The in-memory `DecayedLog` handle.  `sharedHashes` is the open
database's bucket (`none` models `tx.Bucket(sharedHashBucket) == nil`);
`gcRunning` records whether the `garbageCollector` goroutine is live
(`Start` launches it exactly when `d.Notifier != nil`). -/
structure DecayedLog where
  sharedHashes : Option Bucket
  gcRunning : Bool

/-- `DecayedLog.Put` from the source: encode the CLTV big-endian into
`scratch`, then inside one batched transaction `CreateBucketIfNotExists`
and `sharedHashes.Put(hash, scratch[:])`.  Bolt rejects an empty key
(`ErrKeyRequired`), in which case the transaction rolls back and the state
is unchanged. -/
def DecayedLog.Put (d : DecayedLog) (hash : Bytes) (cltv : Nat) :
    Except String DecayedLog :=
  let scratch := putUint32BE cltv
  let b := d.sharedHashes.getD []
  if hash.length = 0 then
    Except.error "key required"
  else
    Except.ok { d with sharedHashes := some (bucketPut b hash scratch) }

/-- `DecayedLog.Get` from the source: `math.MaxUint32` when the key is
absent, the big-endian decode of the stored bytes otherwise, and an error
when the shared-hash bucket itself does not exist. -/
def DecayedLog.Get (d : DecayedLog) (hash : Bytes) : Except String Nat :=
  match d.sharedHashes with
  | none => Except.error "sharedHashes is nil, could not retrieve CLTV value"
  | some b =>
      match bucketGet b hash with
      | none => Except.ok maxUint32
      | some valueBytes => Except.ok (uint32BE valueBytes)

/-- `DecayedLog.Delete` from the source: `CreateBucketIfNotExists`, then
`sharedHashes.Delete(hash)` (which succeeds even when the key is absent). -/
def DecayedLog.Delete (d : DecayedLog) (hash : Bytes) : DecayedLog :=
  { d with sharedHashes := some (bucketDel (d.sharedHashes.getD []) hash) }

/-- The `ForEach` pass of one `garbageCollector` sweep: collect, in bucket
order, the keys whose stored CLTV is strictly below the epoch height.  The
height is compared after Go's `uint32(epoch.Height)` conversion. -/
def gcCollect (height : Nat) : Bucket → List Bytes
  | [] => []
  | kv :: rest =>
      if uint32BE kv.2 < height % 2 ^ 32 then kv.1 :: gcCollect height rest
      else gcCollect height rest

/-- One iteration of the `garbageCollector` loop body for an epoch at
`height`: inside one batched transaction, fail if the bucket is missing,
otherwise collect the expired keys and delete each of them. -/
def DecayedLog.gcSweep (d : DecayedLog) (height : Nat) :
    Except String DecayedLog :=
  match d.sharedHashes with
  | none => Except.error "sharedHashBucket is nil"
  | some b =>
      let expiredCltv := gcCollect height b
      Except.ok { d with sharedHashes := some (expiredCltv.foldl bucketDel b) }

/-- `DecayedLog.Start` from the source: open the channeldb over the durable
directory contents, `CreateBucketIfNotExists(sharedHashBucket)`, and launch
the garbage collector exactly when a notifier is configured. -/
def DecayedLog.Start (disk : Disk) (hasNotifier : Bool) : DecayedLog :=
  { sharedHashes := some (disk.sharedHashes.getD [])
    gcRunning := hasNotifier }

/-- `DecayedLog.Stop` from the source: close the quit channel and close the
database.  Every committed bolt transaction is already durable, so the disk
keeps the bucket contents. -/
def DecayedLog.Stop (d : DecayedLog) : Disk :=
  { sharedHashes := d.sharedHashes }

/-- An event the running log can process: a `Put`, a `Delete`, or a block
epoch notification handled by the garbage collector. -/
inductive LogOp where
  | putOp (hash : Bytes) (cltv : Nat)
  | delOp (hash : Bytes)
  | epochOp (height : Nat)

/-- Effect of one event on the log state.  A failed `Put` transaction rolls
back; an epoch is processed only while the garbage collector runs, and a
sweep error makes the collector goroutine return (it stops running). -/
def DecayedLog.applyOp (d : DecayedLog) : LogOp → DecayedLog
  | LogOp.putOp h v =>
      match d.Put h v with
      | Except.ok d' => d'
      | Except.error _ => d
  | LogOp.delOp h => d.Delete h
  | LogOp.epochOp ht =>
      if d.gcRunning then
        match d.gcSweep ht with
        | Except.ok d' => d'
        | Except.error _ => { d with gcRunning := false }
      else d

/-- Effect of a sequence of events. -/
def DecayedLog.applyOps (d : DecayedLog) (ops : List LogOp) : DecayedLog :=
  ops.foldl DecayedLog.applyOp d

/-! ### SHA-256 (Go `crypto/sha256`), used by `HashSharedSecret` -/

/-- Rotate a 32-bit word right by `n` positions. -/
def rotr32 (n x : Nat) : Nat := ((x >>> n) ||| (x <<< (32 - n))) % 2 ^ 32

/-- The eight big-endian bytes of a 64-bit value. -/
def putUint64BE (v : Nat) : Bytes :=
  [v / 2 ^ 56 % 256, v / 2 ^ 48 % 256, v / 2 ^ 40 % 256, v / 2 ^ 32 % 256,
   v / 2 ^ 24 % 256, v / 2 ^ 16 % 256, v / 2 ^ 8 % 256, v % 256]

/-- The 64 SHA-256 round constants, written in decimal. -/
def sha256K : List Nat :=
  [1116352408, 1899447441, 3049323471, 3921009573, 961987163,
   1508970993, 2453635748, 2870763221, 3624381080, 310598401,
   607225278, 1426881987, 1925078388, 2162078206, 2614888103,
   3248222580, 3835390401, 4022224774, 264347078, 604807628,
   770255983, 1249150122, 1555081692, 1996064986, 2554220882,
   2821834349, 2952996808, 3210313671, 3336571891, 3584528711,
   113926993, 338241895, 666307205, 773529912, 1294757372,
   1396182291, 1695183700, 1986661051, 2177026350, 2456956037,
   2730485921, 2820302411, 3259730800, 3345764771, 3516065817,
   3600352804, 4094571909, 275423344, 430227734, 506948616,
   659060556, 883997877, 958139571, 1322822218, 1537002063,
   1747873779, 1955562222, 2024104815, 2227730452, 2361852424,
   2428436474, 2756734187, 3204031479, 3329325298]

/-- The eight 32-bit words of a SHA-256 chaining value. -/
structure Hash8 where
  a : Nat
  b : Nat
  c : Nat
  d : Nat
  e : Nat
  f : Nat
  g : Nat
  h : Nat

/-- The SHA-256 initial chaining value, written in decimal. -/
def sha256H0 : Hash8 :=
  { a := 1779033703, b := 3144134277, c := 1013904242, d := 2773480762,
    e := 1359893119, f := 2600822924, g := 528734635, h := 1541459225 }

/-- SHA-256 padding: append `0x80`, zeros to 56 mod 64 bytes, then the
bit length as eight big-endian bytes. -/
def sha256pad (msg : List Nat) : List Nat :=
  msg ++ 0x80 :: List.replicate ((119 - msg.length % 64) % 64) 0
      ++ putUint64BE (msg.length * 8)

/-- Split a byte string into 64-byte blocks. -/
def chunks64 (l : List Nat) : List (List Nat) :=
  if h : l = [] then [] else l.take 64 :: chunks64 (l.drop 64)
termination_by l.length
decreasing_by
  have := List.length_pos.mpr h
  simp only [List.length_drop]
  omega

/-- Big-endian 32-bit words of a byte string (groups of four bytes). -/
def bytesToWords : List Nat → List Nat
  | b0 :: b1 :: b2 :: b3 :: rest =>
      (b0 * 2 ^ 24 + b1 * 2 ^ 16 + b2 * 2 ^ 8 + b3) :: bytesToWords rest
  | _ => []

/-- One message-schedule extension step: append word `w[i]` computed from
`w[i-2]`, `w[i-7]`, `w[i-15]`, `w[i-16]`. -/
def sha256extendStep (w : List Nat) : List Nat :=
  let i := w.length
  let x15 := w.getD (i - 15) 0
  let x2 := w.getD (i - 2) 0
  let s0 := (rotr32 7 x15) ^^^ (rotr32 18 x15) ^^^ (x15 >>> 3)
  let s1 := (rotr32 17 x2) ^^^ (rotr32 19 x2) ^^^ (x2 >>> 10)
  w ++ [(w.getD (i - 16) 0 + s0 + w.getD (i - 7) 0 + s1) % 2 ^ 32]

/-- The full 64-word message schedule of one block. -/
def sha256schedule (m : List Nat) : List Nat :=
  Nat.repeat sha256extendStep 48 m

/-- One SHA-256 compression round for round constant and schedule word
`kw`. -/
def sha256round (st : Hash8) (kw : Nat × Nat) : Hash8 :=
  let s1 := (rotr32 6 st.e) ^^^ (rotr32 11 st.e) ^^^ (rotr32 25 st.e)
  let ch := (st.e &&& st.f) ^^^ ((st.e ^^^ (2 ^ 32 - 1)) &&& st.g)
  let temp1 := (st.h + s1 + ch + kw.1 + kw.2) % 2 ^ 32
  let s0 := (rotr32 2 st.a) ^^^ (rotr32 13 st.a) ^^^ (rotr32 22 st.a)
  let maj := (st.a &&& st.b) ^^^ (st.a &&& st.c) ^^^ (st.b &&& st.c)
  let temp2 := (s0 + maj) % 2 ^ 32
  { a := (temp1 + temp2) % 2 ^ 32, b := st.a, c := st.b, d := st.c,
    e := (st.d + temp1) % 2 ^ 32, f := st.e, g := st.f, h := st.g }

/-- Compression of one 64-byte block into the chaining value. -/
def sha256compress (hv : Hash8) (block : List Nat) : Hash8 :=
  let w := sha256schedule (bytesToWords block)
  let st := (sha256K.zip w).foldl sha256round hv
  { a := (hv.a + st.a) % 2 ^ 32, b := (hv.b + st.b) % 2 ^ 32,
    c := (hv.c + st.c) % 2 ^ 32, d := (hv.d + st.d) % 2 ^ 32,
    e := (hv.e + st.e) % 2 ^ 32, f := (hv.f + st.f) % 2 ^ 32,
    g := (hv.g + st.g) % 2 ^ 32, h := (hv.h + st.h) % 2 ^ 32 }

/-- SHA-256 of a byte string, as its 32-byte big-endian digest. -/
def sha256 (msg : List Nat) : Bytes :=
  let hv := (chunks64 (sha256pad msg)).foldl sha256compress sha256H0
  putUint32BE hv.a ++ putUint32BE hv.b ++ putUint32BE hv.c ++ putUint32BE hv.d ++
    putUint32BE hv.e ++ putUint32BE hv.f ++ putUint32BE hv.g ++ putUint32BE hv.h

/-- Go's `copy(dst, src)`: overwrite the first `min dst.length src.length`
positions of `dst` with `src`, keeping the tail of `dst`. -/
def goCopy (dst src : List Nat) : List Nat :=
  src.take dst.length ++ dst.drop src.length

/-- `HashSharedSecret` from the source: sha-256 the shared secret and
`copy` the first `sharedHashSize` bytes of the digest into a zeroed
20-byte array.  (Go fixes the input at `sharedSecretSize` = 32 bytes.) -/
def HashSharedSecret (sharedSecret : Bytes) : Bytes :=
  goCopy (List.replicate sharedHashSize 0)
    ((sha256 sharedSecret).take sharedHashSize)

/-! ### Association-list lemmas -/

theorem bucketHasKey_false_iff (b : Bucket) (k : Bytes) :
    bucketHasKey b k = false ↔ bucketGet b k = none := by
  induction b with
  | nil => simp [bucketHasKey, bucketGet]
  | cons kv rest ih =>
      by_cases h : kv.1 = k <;> simp [bucketHasKey, bucketGet, h, ih]

theorem bucketGet_replace_self (b : Bucket) (k v : Bytes)
    (h : bucketHasKey b k = true) :
    bucketGet (bucketReplace b k v) k = some v := by
  induction b with
  | nil => simp [bucketHasKey] at h
  | cons kv rest ih =>
      by_cases hk : kv.1 = k
      · simp [bucketReplace, hk, bucketGet]
      · simp [bucketHasKey, hk] at h
        simp [bucketReplace, hk, bucketGet, ih h]

theorem bucketGet_replace_ne (b : Bucket) (k v k' : Bytes) (h : k' ≠ k) :
    bucketGet (bucketReplace b k v) k' = bucketGet b k' := by
  induction b with
  | nil => simp [bucketReplace]
  | cons kv rest ih =>
      by_cases hk : kv.1 = k
      · simp [bucketReplace, hk, bucketGet, Ne.symm h, ih]
      · simp only [bucketReplace, hk, if_false, bucketGet, ih]

theorem bucketGet_append_single_self (b : Bucket) (k v : Bytes)
    (h : bucketHasKey b k = false) :
    bucketGet (b ++ [(k, v)]) k = some v := by
  induction b with
  | nil => simp [bucketGet]
  | cons kv rest ih =>
      by_cases hk : kv.1 = k
      · simp [bucketHasKey, hk] at h
      · simp [bucketHasKey, hk] at h
        simp [bucketGet, hk, ih h]

theorem bucketGet_append_single_ne (b : Bucket) (k v k' : Bytes)
    (h : k' ≠ k) :
    bucketGet (b ++ [(k, v)]) k' = bucketGet b k' := by
  induction b with
  | nil => simp [bucketGet, Ne.symm h]
  | cons kv rest ih =>
      by_cases hk : kv.1 = k' <;> simp [bucketGet, hk, ih]

theorem bucketGet_put_self (b : Bucket) (k v : Bytes) :
    bucketGet (bucketPut b k v) k = some v := by
  unfold bucketPut
  by_cases h : bucketHasKey b k = true
  · simp [h, bucketGet_replace_self b k v h]
  · simp only [Bool.not_eq_true] at h
    simp [h, bucketGet_append_single_self b k v h]

theorem bucketGet_put_ne (b : Bucket) (k v k' : Bytes) (h : k' ≠ k) :
    bucketGet (bucketPut b k v) k' = bucketGet b k' := by
  unfold bucketPut
  by_cases hk : bucketHasKey b k = true
  · simp [hk, bucketGet_replace_ne b k v k' h]
  · simp only [Bool.not_eq_true] at hk
    simp [hk, bucketGet_append_single_ne b k v k' h]

theorem bucketGet_del_self (b : Bucket) (k : Bytes) :
    bucketGet (bucketDel b k) k = none := by
  induction b with
  | nil => simp [bucketDel, bucketGet]
  | cons kv rest ih =>
      by_cases hk : kv.1 = k <;> simp [bucketDel, hk, bucketGet, ih]

theorem bucketGet_del_ne (b : Bucket) (k k' : Bytes) (h : k' ≠ k) :
    bucketGet (bucketDel b k) k' = bucketGet b k' := by
  induction b with
  | nil => simp [bucketDel]
  | cons kv rest ih =>
      by_cases hk : kv.1 = k
      · simp [bucketDel, hk, bucketGet, Ne.symm h, ih]
      · by_cases hk' : kv.1 = k' <;> simp [bucketDel, hk, bucketGet, hk', ih, h]

theorem bucketGet_foldl_del (ks : List Bytes) (b : Bucket) (k : Bytes) :
    bucketGet (ks.foldl bucketDel b) k =
      if k ∈ ks then none else bucketGet b k := by
  induction ks generalizing b with
  | nil => simp
  | cons k0 ks ih =>
      by_cases hk : k = k0
      · subst hk
        simp only [List.foldl_cons, ih, List.mem_cons, true_or, if_true]
        simp [bucketGet_del_self]
      · simp only [List.foldl_cons, ih, List.mem_cons, hk, false_or]
        rw [bucketGet_del_ne b k0 k hk]

theorem mem_of_bucketGet (b : Bucket) (k v : Bytes)
    (h : bucketGet b k = some v) : (k, v) ∈ b := by
  induction b with
  | nil => simp [bucketGet] at h
  | cons kv rest ih =>
      by_cases hk : kv.1 = k
      · simp only [bucketGet, hk, if_true, Option.some.injEq] at h
        subst h
        rw [← hk]
        simp
      · simp only [bucketGet, hk, if_false] at h
        exact List.mem_cons_of_mem _ (ih h)

theorem bucketGet_isSome_of_mem (b : Bucket) (k v : Bytes)
    (h : (k, v) ∈ b) : ∃ w, bucketGet b k = some w := by
  induction b with
  | nil => simp at h
  | cons kv rest ih =>
      by_cases hk : kv.1 = k
      · exact ⟨kv.2, by simp [bucketGet, hk]⟩
      · rcases List.mem_cons.mp h with hh | hh
        · exact absurd (congrArg Prod.fst hh.symm) hk
        · rcases ih hh with ⟨w, hw⟩
          exact ⟨w, by simp [bucketGet, hk, hw]⟩

theorem bucketGet_of_mem_nodup (b : Bucket) (k v : Bytes)
    (hnd : keysNodup b) (h : (k, v) ∈ b) : bucketGet b k = some v := by
  induction b with
  | nil => simp at h
  | cons kv rest ih =>
      rcases List.mem_cons.mp h with hh | hh
      · subst hh
        simp [bucketGet]
      · have hnd' := hnd
        simp only [keysNodup, List.map_cons, List.nodup_cons] at hnd'
        have hk : kv.1 ≠ k := by
          intro hkk
          exact hnd'.1 (by rw [hkk]; exact List.mem_map.mpr ⟨(k, v), hh, rfl⟩)
        simp only [bucketGet, hk, if_false]
        exact ih hnd'.2 hh

theorem bucketReplace_replace (b : Bucket) (k v : Bytes) :
    bucketReplace (bucketReplace b k v) k v = bucketReplace b k v := by
  induction b with
  | nil => rfl
  | cons kv rest ih =>
      by_cases hk : kv.1 = k <;> simp [bucketReplace, hk, ih]

theorem bucketHasKey_replace (b : Bucket) (k v : Bytes) :
    bucketHasKey (bucketReplace b k v) k = bucketHasKey b k := by
  induction b with
  | nil => rfl
  | cons kv rest ih =>
      by_cases hk : kv.1 = k <;> simp [bucketReplace, hk, bucketHasKey, ih]

theorem bucketHasKey_append_single (b : Bucket) (k v : Bytes) :
    bucketHasKey (b ++ [(k, v)]) k = true := by
  induction b with
  | nil => simp [bucketHasKey]
  | cons kv rest ih =>
      by_cases hk : kv.1 = k <;> simp [bucketHasKey, hk, ih]

theorem bucketReplace_of_not_hasKey (b : Bucket) (k v : Bytes)
    (h : bucketHasKey b k = false) : bucketReplace b k v = b := by
  induction b with
  | nil => rfl
  | cons kv rest ih =>
      by_cases hk : kv.1 = k
      · simp [bucketHasKey, hk] at h
      · simp [bucketHasKey, hk] at h
        simp [bucketReplace, hk, ih h]

theorem bucketReplace_append (b1 b2 : Bucket) (k v : Bytes) :
    bucketReplace (b1 ++ b2) k v =
      bucketReplace b1 k v ++ bucketReplace b2 k v := by
  induction b1 with
  | nil => rfl
  | cons kv rest ih =>
      by_cases hk : kv.1 = k <;> simp [bucketReplace, hk, ih]

theorem bucketPut_idem (b : Bucket) (k v : Bytes) :
    bucketPut (bucketPut b k v) k v = bucketPut b k v := by
  by_cases h : bucketHasKey b k = true
  · simp only [bucketPut, h, if_true, bucketHasKey_replace, bucketReplace_replace]
  · simp only [Bool.not_eq_true] at h
    simp only [bucketPut, h, Bool.false_eq_true, if_false,
      bucketHasKey_append_single, if_true, bucketReplace_append,
      bucketReplace_of_not_hasKey b k v h]
    simp [bucketReplace]

theorem not_mem_of_not_hasKey (b : Bucket) (k v : Bytes)
    (h : bucketHasKey b k = false) : (k, v) ∉ b := by
  intro hmem
  rcases bucketGet_isSome_of_mem b k v hmem with ⟨w, hw⟩
  rw [(bucketHasKey_false_iff b k).mp h] at hw
  cases hw

theorem mem_bucketReplace_self_eq (b : Bucket) (k v v' : Bytes)
    (h : (k, v') ∈ bucketReplace b k v) : v' = v := by
  induction b with
  | nil => simp [bucketReplace] at h
  | cons kv rest ih =>
      by_cases hk : kv.1 = k
      · simp only [bucketReplace, hk, if_true] at h
        rcases List.mem_cons.mp h with hh | hh
        · exact congrArg Prod.snd hh
        · exact ih hh
      · simp only [bucketReplace, hk, if_false] at h
        rcases List.mem_cons.mp h with hh | hh
        · exact absurd (congrArg Prod.fst hh.symm) hk
        · exact ih hh

theorem mem_bucketPut_self_eq (b : Bucket) (k v v' : Bytes)
    (h : (k, v') ∈ bucketPut b k v) : v' = v := by
  by_cases hk : bucketHasKey b k = true
  · simp only [bucketPut, hk, if_true] at h
    exact mem_bucketReplace_self_eq b k v v' h
  · simp only [Bool.not_eq_true] at hk
    simp only [bucketPut, hk, Bool.false_eq_true, if_false] at h
    rcases List.mem_append.mp h with hh | hh
    · exact absurd hh (not_mem_of_not_hasKey b k v' hk)
    · simpa using hh

theorem countKey_replace (b : Bucket) (k v : Bytes) :
    countKey (bucketReplace b k v) k = countKey b k := by
  induction b with
  | nil => rfl
  | cons kv rest ih =>
      by_cases hk : kv.1 = k <;> simp [bucketReplace, hk, countKey, ih]

theorem countKey_append_single (b : Bucket) (k v : Bytes) :
    countKey (b ++ [(k, v)]) k = countKey b k + 1 := by
  induction b with
  | nil => simp [countKey]
  | cons kv rest ih =>
      by_cases hk : kv.1 = k <;> simp [countKey, hk, ih]

theorem bucketHasKey_iff_countKey_pos (b : Bucket) (k : Bytes) :
    bucketHasKey b k = true ↔ 0 < countKey b k := by
  induction b with
  | nil => simp [bucketHasKey, countKey]
  | cons kv rest ih =>
      by_cases hk : kv.1 = k <;> simp [bucketHasKey, countKey, hk, ih]

theorem countKey_put (b : Bucket) (k v : Bytes) (h : countKey b k ≤ 1) :
    countKey (bucketPut b k v) k = 1 := by
  by_cases hk : bucketHasKey b k = true
  · have hpos := (bucketHasKey_iff_countKey_pos b k).mp hk
    simp only [bucketPut, hk, if_true, countKey_replace]
    omega
  · simp only [Bool.not_eq_true] at hk
    have hz : ¬ 0 < countKey b k :=
      fun hp => by simp [(bucketHasKey_iff_countKey_pos b k).mpr hp] at hk
    simp only [bucketPut, hk, Bool.false_eq_true, if_false, countKey_append_single]
    omega

theorem gcCollect_mem (height : Nat) (b : Bucket) (k : Bytes) :
    k ∈ gcCollect height b ↔
      ∃ v, (k, v) ∈ b ∧ uint32BE v < height % 2 ^ 32 := by
  induction b with
  | nil => simp [gcCollect]
  | cons kv rest ih =>
      by_cases hlt : uint32BE kv.2 < height % 2 ^ 32
      · simp only [gcCollect, hlt, if_true, List.mem_cons, ih]
        constructor
        · rintro (rfl | ⟨v, hv, hvlt⟩)
          · exact ⟨kv.2, Or.inl (by simp), hlt⟩
          · exact ⟨v, Or.inr hv, hvlt⟩
        · rintro ⟨v, hv | hv, hvlt⟩
          · exact Or.inl (congrArg Prod.fst hv)
          · exact Or.inr ⟨v, hv, hvlt⟩
      · simp only [gcCollect, hlt, if_false, ih, List.mem_cons]
        constructor
        · rintro ⟨v, hv, hvlt⟩
          exact ⟨v, Or.inr hv, hvlt⟩
        · rintro ⟨v, hv | hv, hvlt⟩
          · have h2 : v = kv.2 := congrArg Prod.snd hv
            exact absurd (h2 ▸ hvlt) hlt
          · exact ⟨v, hv, hvlt⟩

theorem uint32BE_putUint32BE (v : Nat) (h : v < 2 ^ 32) :
    uint32BE (putUint32BE v) = v := by
  simp only [uint32BE, putUint32BE, List.getD_cons_zero, List.getD_cons_succ]
  omega

/-- Central garbage-collection lemma: on a bucket with distinct keys, one
sweep leaves the lookup of every key equal to its old value when that value
is unexpired, and removes it when it is expired. -/
theorem gc_fold_lookup (b : Bucket) (hnd : keysNodup b) (height : Nat)
    (k : Bytes) :
    bucketGet ((gcCollect height b).foldl bucketDel b) k =
      match bucketGet b k with
      | some v => if uint32BE v < height % 2 ^ 32 then none else some v
      | none => none := by
  rw [bucketGet_foldl_del]
  cases hget : bucketGet b k with
  | none =>
      by_cases hin : k ∈ gcCollect height b
      · simp [hin]
      · simp [hin, hget]
  | some v =>
      by_cases hin : k ∈ gcCollect height b
      · rcases (gcCollect_mem height b k).mp hin with ⟨v', hmem, hlt⟩
        have hv' : some v' = some v := by
          rw [← hget, bucketGet_of_mem_nodup b k v' hnd hmem]
        have hv : v' = v := Option.some.inj hv'
        subst hv
        rw [if_pos hin]
        show none = if uint32BE v' < height % 2 ^ 32 then none else some v'
        rw [if_pos hlt]
      · have hnlt : ¬ uint32BE v < height % 2 ^ 32 := by
          intro hlt
          exact hin ((gcCollect_mem height b k).mpr
            ⟨v, mem_of_bucketGet b k v hget, hlt⟩)
        rw [if_neg hin]
        show some v = if uint32BE v < height % 2 ^ 32 then none else some v
        rw [if_neg hnlt]

/-! ### Model-level helper lemmas -/

theorem put_ok_state (d d' : DecayedLog) (hash : Bytes) (cltv : Nat)
    (h : d.Put hash cltv = Except.ok d') :
    d' = { d with
           sharedHashes := some (bucketPut (d.sharedHashes.getD []) hash
             (putUint32BE cltv)) } := by
  simp only [DecayedLog.Put] at h
  split at h
  · cases h
  · exact (Except.ok.inj h).symm

theorem get_eq_of_lookup (d : DecayedLog) (b : Bucket)
    (hb : d.sharedHashes = some b) (hash : Bytes) :
    d.Get hash =
      match bucketGet b hash with
      | none => Except.ok maxUint32
      | some v => Except.ok (uint32BE v) := by
  unfold DecayedLog.Get
  rw [hb]

theorem gcSweep_some (d : DecayedLog) (b : Bucket) (H : Nat)
    (hb : d.sharedHashes = some b) :
    d.gcSweep H = Except.ok
      { d with sharedHashes := some ((gcCollect H b).foldl bucketDel b) } := by
  unfold DecayedLog.gcSweep
  rw [hb]

/-! ### The claims -/

/-- C1: for every fingerprint and every 32-bit expiry value, a successful
`Put hash cltv` followed by `Get hash` returns exactly `cltv`: the stored
expiry round-trips through the big-endian 4-byte encoding unchanged. -/
theorem c1_put_get_roundtrip (d d' : DecayedLog) (hash : Bytes) (cltv : Nat)
    (hput : d.Put hash cltv = Except.ok d') (hc : cltv < 2 ^ 32) :
    d'.Get hash = Except.ok cltv := by
  have hstate := put_ok_state d d' hash cltv hput
  subst hstate
  rw [get_eq_of_lookup _ (bucketPut (d.sharedHashes.getD []) hash
    (putUint32BE cltv)) rfl hash]
  rw [bucketGet_put_self]
  show Except.ok (uint32BE (putUint32BE cltv)) = Except.ok cltv
  rw [uint32BE_putUint32BE cltv hc]

/-- Witness for C1 at a concrete input. -/
theorem c1_witness :
    (⟨some [([1], [0, 0, 0, 42])], false⟩ : DecayedLog).Get [1] =
      Except.ok 42 :=
  c1_put_get_roundtrip ⟨none, false⟩ ⟨some [([1], [0, 0, 0, 42])], false⟩
    [1] 42 rfl (by decide)

/-- C3: `Get` of a fingerprint that is not stored — never put, or removed by
`Delete` — returns the sentinel `math.MaxUint32` and no error. -/
theorem c3_get_absent (d : DecayedLog) (hash : Bytes) :
    (∀ b, d.sharedHashes = some b → bucketGet b hash = none →
      d.Get hash = Except.ok maxUint32) ∧
    (d.Delete hash).Get hash = Except.ok maxUint32 := by
  constructor
  · intro b hb hget
    rw [get_eq_of_lookup d b hb hash, hget]
  · rw [get_eq_of_lookup (d.Delete hash)
      (bucketDel (d.sharedHashes.getD []) hash) rfl hash]
    rw [bucketGet_del_self]

/-- Witness for C3 at a concrete input. -/
theorem c3_witness :
    (⟨some [([2], [0, 0, 0, 7])], false⟩ : DecayedLog).Get [1] =
        Except.ok maxUint32 ∧
      ((⟨some [([2], [0, 0, 0, 7])], false⟩ : DecayedLog).Delete [2]).Get [2] =
        Except.ok maxUint32 :=
  ⟨(c3_get_absent ⟨some [([2], [0, 0, 0, 7])], false⟩ [1]).1
      [([2], [0, 0, 0, 7])] rfl rfl,
    (c3_get_absent ⟨some [([2], [0, 0, 0, 7])], false⟩ [2]).2⟩

/-- C5: `Put` is an idempotent upsert: putting the same value twice leaves
the same state as once, and `Put hash v1` then `Put hash v2` leaves exactly
one record for `hash`, read back by `Get` as `v2`, whether or not a record
existed before. -/
theorem c5_put_idempotent_upsert :
    (∀ (d d1 : DecayedLog) (hash : Bytes) (v : Nat),
      d.Put hash v = Except.ok d1 → d1.Put hash v = Except.ok d1) ∧
    (∀ (d d1 d2 : DecayedLog) (hash : Bytes) (v1 v2 : Nat),
      countKey (d.sharedHashes.getD []) hash ≤ 1 → v2 < 2 ^ 32 →
      d.Put hash v1 = Except.ok d1 → d1.Put hash v2 = Except.ok d2 →
      countKey (d2.sharedHashes.getD []) hash = 1 ∧
        d2.Get hash = Except.ok v2) := by
  have hlen : ∀ (d d1 : DecayedLog) (hash : Bytes) (v : Nat),
      d.Put hash v = Except.ok d1 → ¬ hash.length = 0 := by
    intro d d1 hash v h hl
    simp [DecayedLog.Put, hl] at h
  constructor
  · intro d d1 hash v hput
    have h0 := hlen d d1 hash v hput
    have hstate := put_ok_state d d1 hash v hput
    subst hstate
    simp only [DecayedLog.Put, h0, if_false, Option.getD_some, bucketPut_idem]
  · intro d d1 d2 hash v1 v2 hcount hv2 hput1 hput2
    have hstate1 := put_ok_state d d1 hash v1 hput1
    have hstate2 := put_ok_state d1 d2 hash v2 hput2
    subst hstate1
    subst hstate2
    simp only [Option.getD_some]
    refine ⟨?_, ?_⟩
    · exact countKey_put _ hash (putUint32BE v2)
        (le_of_eq (countKey_put _ hash (putUint32BE v1) hcount))
    · rw [get_eq_of_lookup _ _ rfl hash, bucketGet_put_self]
      show Except.ok (uint32BE (putUint32BE v2)) = Except.ok v2
      rw [uint32BE_putUint32BE v2 hv2]

/-- Witness for C5 at concrete inputs. -/
theorem c5_witness :
    ((⟨some [([1], [0, 0, 0, 5])], false⟩ : DecayedLog).Put [1] 5 =
        Except.ok (⟨some [([1], [0, 0, 0, 5])], false⟩ : DecayedLog)) ∧
      countKey ((⟨some [([1], [0, 0, 0, 9])], false⟩ :
          DecayedLog).sharedHashes.getD []) [1] = 1 ∧
      (⟨some [([1], [0, 0, 0, 9])], false⟩ : DecayedLog).Get [1] =
        Except.ok 9 :=
  ⟨c5_put_idempotent_upsert.1 ⟨none, false⟩
      ⟨some [([1], [0, 0, 0, 5])], false⟩ [1] 5 rfl,
    c5_put_idempotent_upsert.2 ⟨none, false⟩
      ⟨some [([1], [0, 0, 0, 5])], false⟩
      ⟨some [([1], [0, 0, 0, 9])], false⟩ [1] 5 9
      (by decide) (by decide) rfl rfl⟩

/-- Length of a SHA-256 digest. -/
theorem sha256_length (msg : List Nat) : (sha256 msg).length = 32 := by
  simp [sha256, putUint32BE]

/-- C6: the fingerprint used as the log key, `HashSharedSecret s`, is the
first 20 bytes of the SHA-256 digest of the 32-byte shared secret `s`. -/
theorem c6_hash_shared_secret (s : Bytes) (hs : s.length = 32) :
    HashSharedSecret s = (sha256 s).take 20 := by
  have hlen : ((sha256 s).take 20).length = 20 := by
    rw [List.length_take, sha256_length]
    decide
  show ((sha256 s).take 20).take (List.replicate 20 0).length ++
      (List.replicate 20 0).drop ((sha256 s).take 20).length = (sha256 s).take 20
  rw [List.length_replicate, hlen, List.take_take, Nat.min_self,
    List.drop_eq_nil_of_le (by rw [List.length_replicate]), List.append_nil]

/-- Witness for C6 at a concrete 32-byte input. -/
theorem c6_witness :
    (List.replicate 32 0).length = 32 ∧
      HashSharedSecret (List.replicate 32 0) =
        (sha256 (List.replicate 32 0)).take 20 :=
  ⟨by decide, c6_hash_shared_secret (List.replicate 32 0) (by decide)⟩

/-- C2: one garbage-collection iteration at notified height H deletes
exactly the records whose stored expiry is strictly below H and keeps every
other record with its value unchanged; a record with expiry h survives a
notification at h, is removed by one at h+1, and Get afterwards reports it
absent. -/
theorem c2_gc_deletes_exactly_expired :
    (∀ (d : DecayedLog) (b : Bucket) (H : Nat),
      d.sharedHashes = some b → keysNodup b → H < 2 ^ 32 →
      ∃ b', d.gcSweep H = Except.ok { d with sharedHashes := some b' } ∧
        ∀ k, bucketGet b' k =
          match bucketGet b k with
          | some v => if uint32BE v < H then none else some v
          | none => none) ∧
    (∀ (d d1 : DecayedLog) (hash : Bytes) (h : Nat),
      h + 1 < 2 ^ 32 → d.Put hash h = Except.ok d1 →
      ∃ d2, d1.gcSweep h = Except.ok d2 ∧ d2.Get hash = Except.ok h ∧
        ∃ d3, d1.gcSweep (h + 1) = Except.ok d3 ∧
          d3.Get hash = Except.ok maxUint32) := by
  constructor
  · intro d b H hb hnd hH
    refine ⟨(gcCollect H b).foldl bucketDel b, gcSweep_some d b H hb, ?_⟩
    intro k
    rw [gc_fold_lookup b hnd H k, Nat.mod_eq_of_lt hH]
  · intro d d1 hash h hh hput
    have hstate := put_ok_state d d1 hash h hput
    subst hstate
    have hnotin : hash ∉ gcCollect h
        (bucketPut (d.sharedHashes.getD []) hash (putUint32BE h)) := by
      intro hin
      rcases (gcCollect_mem _ _ _).mp hin with ⟨v, hvmem, hvlt⟩
      have hv := mem_bucketPut_self_eq _ _ _ _ hvmem
      subst hv
      rw [uint32BE_putUint32BE h (by omega)] at hvlt
      have hmod : h % 2 ^ 32 = h := Nat.mod_eq_of_lt (by omega)
      omega
    have hmem1 : (hash, putUint32BE h) ∈
        bucketPut (d.sharedHashes.getD []) hash (putUint32BE h) :=
      mem_of_bucketGet _ _ _ (bucketGet_put_self _ _ _)
    have hin1 : hash ∈ gcCollect (h + 1)
        (bucketPut (d.sharedHashes.getD []) hash (putUint32BE h)) :=
      (gcCollect_mem _ _ _).mpr ⟨putUint32BE h, hmem1, by
        rw [uint32BE_putUint32BE h (by omega), Nat.mod_eq_of_lt hh]
        omega⟩
    refine ⟨_, gcSweep_some _ _ h rfl, ?_, ?_⟩
    · rw [get_eq_of_lookup _ _ rfl hash, bucketGet_foldl_del, if_neg hnotin,
        bucketGet_put_self]
      show Except.ok (uint32BE (putUint32BE h)) = Except.ok h
      rw [uint32BE_putUint32BE h (by omega)]
    · refine ⟨_, gcSweep_some _ _ (h + 1) rfl, ?_⟩
      rw [get_eq_of_lookup _ _ rfl hash, bucketGet_foldl_del, if_pos hin1]

/-- Witness for C2 at concrete inputs. -/
theorem c2_witness :
    (∃ b', (⟨some [([1], [0, 0, 0, 5])], false⟩ : DecayedLog).gcSweep 6 =
        Except.ok (⟨some b', false⟩ : DecayedLog) ∧
        ∀ k, bucketGet b' k =
          match bucketGet [([1], [0, 0, 0, 5])] k with
          | some v => if uint32BE v < 6 then none else some v
          | none => none) ∧
    (∃ d2, (⟨some [([1], [0, 0, 0, 5])], false⟩ : DecayedLog).gcSweep 5 =
        Except.ok d2 ∧ d2.Get [1] = Except.ok 5 ∧
      ∃ d3, (⟨some [([1], [0, 0, 0, 5])], false⟩ : DecayedLog).gcSweep 6 =
          Except.ok d3 ∧ d3.Get [1] = Except.ok maxUint32) :=
  ⟨c2_gc_deletes_exactly_expired.1 ⟨some [([1], [0, 0, 0, 5])], false⟩
      [([1], [0, 0, 0, 5])] 6 rfl (by simp [keysNodup]) (by decide),
    c2_gc_deletes_exactly_expired.2 ⟨none, false⟩
      ⟨some [([1], [0, 0, 0, 5])], false⟩ [1] 5 (by decide) rfl⟩

/-- C4: a record written by Put survives Stop followed by Start over the
same durable directory contents: Get after the restart still returns its
cltv, and a later height notification past the expiry still collects it. -/
theorem c4_restart_preserves_record (d d1 : DecayedLog) (hash : Bytes)
    (cltv : Nat) (hasNotifier : Bool) (hc : cltv < 2 ^ 32)
    (hput : d.Put hash cltv = Except.ok d1) :
    (DecayedLog.Start d1.Stop hasNotifier).Get hash = Except.ok cltv ∧
    ∀ H, cltv < H → H < 2 ^ 32 →
      ∃ d2, (DecayedLog.Start d1.Stop hasNotifier).gcSweep H = Except.ok d2 ∧
        d2.Get hash = Except.ok maxUint32 := by
  have hstate := put_ok_state d d1 hash cltv hput
  have hrestart : (DecayedLog.Start d1.Stop hasNotifier).sharedHashes =
      some (bucketPut (d.sharedHashes.getD []) hash (putUint32BE cltv)) := by
    rw [hstate]
    rfl
  constructor
  · rw [get_eq_of_lookup _ _ hrestart hash, bucketGet_put_self]
    show Except.ok (uint32BE (putUint32BE cltv)) = Except.ok cltv
    rw [uint32BE_putUint32BE cltv hc]
  · intro H hlt hH
    have hin : hash ∈ gcCollect H
        (bucketPut (d.sharedHashes.getD []) hash (putUint32BE cltv)) :=
      (gcCollect_mem _ _ _).mpr ⟨putUint32BE cltv,
        mem_of_bucketGet _ _ _ (bucketGet_put_self _ _ _), by
          rw [uint32BE_putUint32BE cltv hc, Nat.mod_eq_of_lt hH]
          exact hlt⟩
    refine ⟨_, gcSweep_some _ _ H hrestart, ?_⟩
    rw [get_eq_of_lookup _ _ rfl hash, bucketGet_foldl_del, if_pos hin]

/-- Witness for C4 at concrete inputs. -/
theorem c4_witness :
    (DecayedLog.Start
        (⟨some [([1], [0, 0, 0, 7])], true⟩ : DecayedLog).Stop true).Get [1] =
      Except.ok 7 ∧
    ∃ d2, (DecayedLog.Start
        (⟨some [([1], [0, 0, 0, 7])], true⟩ : DecayedLog).Stop true).gcSweep 8 =
        Except.ok d2 ∧ d2.Get [1] = Except.ok maxUint32 :=
  ⟨(c4_restart_preserves_record ⟨none, true⟩
      ⟨some [([1], [0, 0, 0, 7])], true⟩ [1] 7 true (by decide) rfl).1,
    (c4_restart_preserves_record ⟨none, true⟩
      ⟨some [([1], [0, 0, 0, 7])], true⟩ [1] 7 true (by decide) rfl).2
      8 (by decide) (by decide)⟩

/-- C7: with no notifier configured, Start succeeds with the garbage
collector not running, and a stored record survives every sequence of
operations that contains no explicit Delete: only Delete removes records. -/
theorem c7_nil_notifier_no_sweep :
    (∀ disk : Disk, (DecayedLog.Start disk false).gcRunning = false) ∧
    (∀ (d : DecayedLog) (ops : List LogOp) (k : Bytes),
      d.gcRunning = false → (∀ hash, LogOp.delOp hash ∉ ops) →
      (∃ v, bucketGet (d.sharedHashes.getD []) k = some v) →
      ∃ v', bucketGet ((d.applyOps ops).sharedHashes.getD []) k = some v') := by
  constructor
  · intro disk
    rfl
  · intro d ops k
    induction ops generalizing d with
    | nil =>
        intro _ _ hpres
        exact hpres
    | cons op rest ih =>
        intro hgc hnodel hpres
        simp only [DecayedLog.applyOps, List.foldl_cons]
        have hnodel' : ∀ hash, LogOp.delOp hash ∉ rest :=
          fun hash hm => hnodel hash (List.mem_cons_of_mem _ hm)
        cases op with
        | putOp h v =>
            cases hp : d.Put h v with
            | error e =>
                have happ : d.applyOp (LogOp.putOp h v) = d := by
                  simp [DecayedLog.applyOp, hp]
                rw [happ]
                exact ih d hgc hnodel' hpres
            | ok d' =>
                have hst := put_ok_state d d' h v hp
                have happ : d.applyOp (LogOp.putOp h v) = d' := by
                  simp [DecayedLog.applyOp, hp]
                rw [happ]
                refine ih d' ?_ hnodel' ?_
                · rw [hst]
                  exact hgc
                · rw [hst]
                  simp only [Option.getD_some]
                  by_cases hk : k = h
                  · subst hk
                    exact ⟨_, bucketGet_put_self _ _ _⟩
                  · rcases hpres with ⟨v0, hv0⟩
                    refine ⟨v0, ?_⟩
                    rw [bucketGet_put_ne _ _ _ _ hk]
                    exact hv0
        | delOp h =>
            exact absurd (List.mem_cons_self _ _) (hnodel h)
        | epochOp ht =>
            have happ : d.applyOp (LogOp.epochOp ht) = d := by
              simp [DecayedLog.applyOp, hgc]
            rw [happ]
            exact ih d hgc hnodel' hpres

/-- Witness for C7 at concrete inputs. -/
theorem c7_witness :
    (DecayedLog.Start ⟨none⟩ false).gcRunning = false ∧
    ∃ v', bucketGet
        (((⟨some [([1], [0, 0, 0, 5])], false⟩ : DecayedLog).applyOps
          [LogOp.epochOp 9, LogOp.putOp [2] 3]).sharedHashes.getD [])
        [1] = some v' :=
  ⟨c7_nil_notifier_no_sweep.1 ⟨none⟩,
    c7_nil_notifier_no_sweep.2 ⟨some [([1], [0, 0, 0, 5])], false⟩
      [LogOp.epochOp 9, LogOp.putOp [2] 3] [1] rfl
      (by intro hash; simp) ⟨[0, 0, 0, 5], rfl⟩⟩

/-- C9: the absent sentinel is in-band: after Put hash MaxUint32, Get
returns MaxUint32 with no error — the same result as for a fingerprint
never stored — and the garbage collector never deletes such a record at
any notified height. -/
theorem c9_sentinel_in_band (d d1 : DecayedLog) (hash : Bytes)
    (hput : d.Put hash maxUint32 = Except.ok d1) :
    d1.Get hash = Except.ok maxUint32 ∧
    (∀ (dA : DecayedLog) (bA : Bucket), dA.sharedHashes = some bA →
      bucketGet bA hash = none → dA.Get hash = Except.ok maxUint32) ∧
    ∀ H, ∃ d2, d1.gcSweep H = Except.ok d2 ∧
      bucketGet (d2.sharedHashes.getD []) hash =
        some (putUint32BE maxUint32) ∧
      d2.Get hash = Except.ok maxUint32 := by
  have hmax : maxUint32 < 2 ^ 32 := by decide
  have hstate := put_ok_state d d1 hash maxUint32 hput
  subst hstate
  refine ⟨?_, ?_, ?_⟩
  · rw [get_eq_of_lookup _ _ rfl hash, bucketGet_put_self]
    show Except.ok (uint32BE (putUint32BE maxUint32)) = Except.ok maxUint32
    rw [uint32BE_putUint32BE _ hmax]
  · intro dA bA hbA hget
    rw [get_eq_of_lookup dA bA hbA hash, hget]
  · intro H
    have hnotin : hash ∉ gcCollect H
        (bucketPut (d.sharedHashes.getD []) hash (putUint32BE maxUint32)) := by
      intro hin
      rcases (gcCollect_mem _ _ _).mp hin with ⟨v, hvmem, hvlt⟩
      have hv := mem_bucketPut_self_eq _ _ _ _ hvmem
      subst hv
      rw [uint32BE_putUint32BE _ hmax] at hvlt
      have hmod : H % 2 ^ 32 < 2 ^ 32 := Nat.mod_lt _ (by decide)
      simp only [maxUint32] at hvlt
      omega
    refine ⟨_, gcSweep_some _ _ H rfl, ?_, ?_⟩
    · simp only [Option.getD_some]
      rw [bucketGet_foldl_del, if_neg hnotin, bucketGet_put_self]
    · rw [get_eq_of_lookup _ _ rfl hash, bucketGet_foldl_del, if_neg hnotin,
        bucketGet_put_self]
      show Except.ok (uint32BE (putUint32BE maxUint32)) = Except.ok maxUint32
      rw [uint32BE_putUint32BE _ hmax]

/-- Witness for C9 at concrete inputs. -/
theorem c9_witness :
    (⟨some [([1], [255, 255, 255, 255])], false⟩ : DecayedLog).Get [1] =
      Except.ok maxUint32 ∧
    ∃ d2, (⟨some [([1], [255, 255, 255, 255])], false⟩ :
        DecayedLog).gcSweep 100 = Except.ok d2 ∧
      bucketGet (d2.sharedHashes.getD []) [1] =
        some (putUint32BE maxUint32) ∧
      d2.Get [1] = Except.ok maxUint32 :=
  ⟨(c9_sentinel_in_band ⟨none, false⟩
      ⟨some [([1], [255, 255, 255, 255])], false⟩ [1] rfl).1,
    (c9_sentinel_in_band ⟨none, false⟩
      ⟨some [([1], [255, 255, 255, 255])], false⟩ [1] rfl).2.2 100⟩

/-- The bucket survives every single operation once it exists. -/
theorem applyOp_isSome (d : DecayedLog) (op : LogOp)
    (h : d.sharedHashes.isSome = true) :
    (d.applyOp op).sharedHashes.isSome = true := by
  cases op with
  | putOp hs v =>
      cases hp : d.Put hs v with
      | error e => simpa [DecayedLog.applyOp, hp] using h
      | ok d' =>
          have hst := put_ok_state d d' hs v hp
          simp [DecayedLog.applyOp, hp, hst]
  | delOp hs => simp [DecayedLog.applyOp, DecayedLog.Delete]
  | epochOp ht =>
      by_cases hgc : d.gcRunning
      · rcases Option.isSome_iff_exists.mp h with ⟨b, hb⟩
        simp [DecayedLog.applyOp, hgc, gcSweep_some d b ht hb]
      · simpa [DecayedLog.applyOp, hgc] using h

/-- The bucket survives every sequence of operations once it exists. -/
theorem applyOps_isSome (d : DecayedLog) (ops : List LogOp)
    (h : d.sharedHashes.isSome = true) :
    (d.applyOps ops).sharedHashes.isSome = true := by
  induction ops generalizing d with
  | nil => exact h
  | cons op rest ih =>
      simp only [DecayedLog.applyOps, List.foldl_cons]
      exact ih _ (applyOp_isSome d op h)

/-- C10: after a successful Start the shared-hash bucket exists and keeps
existing across any sequence of operations, so the missing-bucket error
branch of Get is unreachable: every Get returns a value without error. -/
theorem c10_bucket_never_nil (disk : Disk) (hasNotifier : Bool)
    (ops : List LogOp) (hash : Bytes) :
    ((DecayedLog.Start disk hasNotifier).applyOps ops).sharedHashes.isSome =
        true ∧
      ∃ v, ((DecayedLog.Start disk hasNotifier).applyOps ops).Get hash =
        Except.ok v := by
  have hs : ((DecayedLog.Start disk hasNotifier).applyOps
      ops).sharedHashes.isSome = true :=
    applyOps_isSome _ ops rfl
  refine ⟨hs, ?_⟩
  rcases Option.isSome_iff_exists.mp hs with ⟨b, hb⟩
  rw [get_eq_of_lookup _ b hb hash]
  cases bucketGet b hash with
  | none => exact ⟨maxUint32, rfl⟩
  | some v => exact ⟨uint32BE v, rfl⟩

end PersistLog
